import Mathlib

/-!
Verification development for the Task-Manager frontend core:
the search-and-rank engine (`src/frontend/src/utils/elasticSearch.js`),
the debounce hook (`useDebounce`), and the session lifecycle manager
(`src/frontend/src/context/AuthContext.js`).

Strings are embedded as `List Char`; JavaScript numbers appearing in the
scorer are embedded as exact rationals (`ℚ`); timestamps are embedded as
integers (`ℤ`, milliseconds).  JavaScript `parseInt`'s NaN result is
embedded as `Option ℤ` (`none` = NaN), and NaN comparison semantics
(every comparison with NaN is false) is written out at each use site.
-/

namespace TaskManager

/-! ## Text normalizer (elasticSearch.js lines 19-22) -/

/-- JavaScript `String.prototype.trim`: drop whitespace from both ends. -/
def jsTrim (s : List Char) : List Char :=
  ((s.dropWhile Char.isWhitespace).reverse.dropWhile Char.isWhitespace).reverse

/-- `normalizeText` (elasticSearch.js:19): `if (!text) return ''; return text.toLowerCase().trim();`.
An absent/empty text normalizes to the empty string. -/
def normalizeText (text : List Char) : List Char :=
  if text = [] then [] else jsTrim (text.map Char.toLower)

/-- JavaScript `String.prototype.includes(needle)` on character lists:
some suffix of the haystack starts with the needle. -/
def jsIncludes (hay needle : List Char) : Bool :=
  hay.tails.any fun suffix => needle.isPrefixOf suffix

/-- JavaScript `String.prototype.startsWith(needle)` on character lists. -/
def jsStartsWith (hay needle : List Char) : Bool :=
  needle.isPrefixOf hay

/-! ## Relevance scorer (elasticSearch.js lines 32-62) -/

/-- `calculateRelevanceScore` (elasticSearch.js:32): base score from the first
matching rule of the if/else-if chain (exact 100 / starts-with 80 /
whole-word 60 / substring 40 / otherwise 0), plus the length-ratio bonus
`(normalizedQuery.length / normalizedText.length) * 20`, clamped by
`Math.min(score, 100)`.  Returns 0 when either input normalizes to empty. -/
def calculateRelevanceScore (text query : List Char) : ℚ :=
  let normalizedText := normalizeText text
  let normalizedQuery := normalizeText query
  if normalizedText = [] ∨ normalizedQuery = [] then 0
  else
    let base : ℚ :=
      if normalizedText = normalizedQuery then 100
      else if jsStartsWith normalizedText normalizedQuery then 80
      else if jsIncludes normalizedText ((' ' :: normalizedQuery) ++ [' ']) then 60
      else if jsIncludes normalizedText normalizedQuery then 40
      else 0
    let lengthRatio : ℚ := (normalizedQuery.length : ℚ) / (normalizedText.length : ℚ)
    min (base + lengthRatio * 20) 100

/-- The Relevance Scorer as the specification states it (spec §4.3), written
independently from the spec's words: priority rules 1-5 give the base, then
the length-ratio bonus is added and the result is clamped to 100, with a
guard returning 0 when either input normalizes to empty. -/
def relevanceScoreSpec (text query : List Char) : ℚ :=
  let t := normalizeText text
  let q := normalizeText query
  if t = [] ∨ q = [] then 0
  else
    let base : ℚ :=
      if t = q then 100
      else if jsStartsWith t q then 80
      else if jsIncludes t ((' ' :: q) ++ [' ']) then 60
      else if jsIncludes t q then 40
      else 0
    min (base + ((q.length : ℚ) / (t.length : ℚ)) * 20) 100

/-! ## Match predicate (elasticSearch.js lines 70-79) -/

/-- `matchesQuery` (elasticSearch.js:70): empty query matches everything,
empty text matches nothing (for a non-empty query), otherwise partial
substring matching on the normalized strings. -/
def matchesQuery (text query : List Char) : Bool :=
  let normalizedText := normalizeText text
  let normalizedQuery := normalizeText query
  if normalizedQuery = [] then true
  else if normalizedText = [] then false
  else jsIncludes normalizedText normalizedQuery

/-! ## Highlighter (elasticSearch.js lines 87-132) -/

/-- A match span as pushed by the highlighter loop: `{start, end, text}`
(the `end` field is named `stop` here because `end` is a Lean keyword). -/
structure MatchSpan where
  start : Nat
  stop : Nat
  text : List Char
deriving DecidableEq

/-- The object returned by `highlightMatches`: `{original, highlighted,
matches, matchCount}`; the early-return branch omits `matchCount`, hence the
`Option`. -/
structure Highlight where
  original : List Char
  highlighted : List Char
  /-- the JS object's `matches` field (`matches` is reserved in Lean) -/
  spans : List MatchSpan
  matchCount : Option Nat
deriving DecidableEq

/-- JavaScript `String.prototype.substring(a, b)` (for `a ≤ b`):
the characters at positions `[a, b)`. -/
def jsSubstring (s : List Char) (a b : Nat) : List Char :=
  (s.drop a).take (b - a)

/-- JavaScript `String.prototype.indexOf(needle, from)` for a non-empty
needle: the least position `i ≥ from` where `needle` occurs, if any.
(JS returns `-1` when there is none; embedded as `none`.) -/
def jsIndexOfFrom (hay needle : List Char) (start : Nat) : Option Nat :=
  match (List.range (hay.length + 1)).filter
      (fun i => start ≤ i && needle.isPrefixOf (hay.drop i) && i + needle.length ≤ hay.length) with
  | [] => none
  | i :: _ => some i

/-- The `while ((index = normalizedText.indexOf(normalizedQuery, startIndex)) !== -1)`
loop of `highlightMatches` (elasticSearch.js:104-111): records a span at each
found index and re-scans from `index + 1`.  `fuel` bounds the iteration count;
`normalizedText.length + 1` iterations suffice whenever the needle is
non-empty, because `startIndex` strictly increases and stays `≤ length`. -/
def findMatchSpans (text nt nq : List Char) : Nat → Nat → List MatchSpan
  | 0, _ => []
  | fuel + 1, startIndex =>
    match jsIndexOfFrom nt nq startIndex with
    | none => []
    | some index =>
      { start := index, stop := index + nq.length,
        text := jsSubstring text index (index + nq.length) }
        :: findMatchSpans text nt nq fuel (index + 1)

/-- One iteration of the highlight-building loop (elasticSearch.js:117-123):
`highlighted = before + "<mark>" + matchText + "</mark>" + after`, where
`before`, `matchText` and `after` are recomputed from the ORIGINAL `text`
each time (so each iteration discards the previous iteration's output). -/
def wrapSpan (text : List Char) (m : MatchSpan) : List Char :=
  jsSubstring text 0 m.start ++ "<mark>".toList ++
    jsSubstring text m.start m.stop ++ "</mark>".toList ++ text.drop m.stop

/-- `highlightMatches` (elasticSearch.js:87):  early pass-through when either
input is falsy; otherwise scan for all occurrences, then run the wrap loop
from the last span down to the first (each iteration overwriting
`highlighted` with a value rebuilt from `text`, as the code does). -/
def highlightMatches (text query : List Char) : Highlight :=
  if text = [] ∨ query = [] then
    { original := text, highlighted := text, spans := [], matchCount := none }
  else
    let normalizedText := normalizeText text
    let normalizedQuery := normalizeText query
    let foundSpans := findMatchSpans text normalizedText normalizedQuery
      (normalizedText.length + 1) 0
    let highlighted := foundSpans.foldr (fun m _previous => wrapSpan text m) text
    { original := text, highlighted := highlighted, spans := foundSpans,
      matchCount := some foundSpans.length }

/-! ## Edit-distance engine (elasticSearch.js lines 219-242)

`levenshteinDistance(str1, str2)` fills a `(m+1) × (n+1)` table over
PREFIXES of its arguments: `dp[i][0] = i`, `dp[0][j] = j`, and
`dp[i][j] = dp[i-1][j-1]` when `str1[i-1] === str2[j-1]`, else
`1 + min(dp[i-1][j-1], dp[i-1][j], dp[i][j-1])`, returning `dp[m][n]`.
Recursion over prefixes (peeling the LAST character) is structural
recursion over the REVERSED lists, so the embedding applies the
head-peeling recurrence `levFuel` to the reversed inputs.  The `fuel`
argument makes the recursion structural (each step consumes one unit, and
`length str1 + length str2` units always suffice); `levFuel_irrel` shows
the value does not depend on the fuel once it is sufficient. -/

/-- The dp recurrence of `levenshteinDistance`, head-peeling form, with fuel:
distance of two empty-or-shorter lists, matching heads take the diagonal,
otherwise `1 + min(substitution, deletion, insertion)` exactly as in the
`Math.min` call of elasticSearch.js:232-236. -/
def levFuel : Nat → List Char → List Char → Nat
  | _, [], ys => ys.length
  | _, _ :: xs, [] => xs.length + 1
  | 0, _ :: _, _ :: _ => 0
  | fuel + 1, x :: xs, y :: ys =>
    if x = y then levFuel fuel xs ys
    else
      min (min (levFuel fuel xs ys + 1) (levFuel fuel xs (y :: ys) + 1))
        (levFuel fuel (x :: xs) ys + 1)

/-- The dp recurrence with the always-sufficient fuel `|a| + |b|`. -/
def lev (a b : List Char) : Nat :=
  levFuel (a.length + b.length) a b

/-- `levenshteinDistance` (elasticSearch.js:219): the prefix dp table read as
structural recursion on the reversed strings. -/
def levenshteinDistance (str1 str2 : List Char) : Nat :=
  lev str1.reverse str2.reverse

/-! ### Edit scripts

`EStep a b` holds when one single-character insertion, deletion or
substitution (at any position, reached through `cong`) transforms `a`
into `b`; `Reach n a b` holds when `n` such edits chain from `a` to `b`.
These characterize what the dp table computes: `reach_lev` shows `lev a b`
edits suffice, and `reach_lev_le` shows no shorter chain exists. -/

/-- One single-character edit: insert, delete or substitute, anywhere. -/
inductive EStep : List Char → List Char → Prop
  | ins (c : Char) (l : List Char) : EStep l (c :: l)
  | del (c : Char) (l : List Char) : EStep (c :: l) l
  | sub (c d : Char) (l : List Char) : EStep (c :: l) (d :: l)
  | cong (c : Char) {l₁ l₂ : List Char} : EStep l₁ l₂ → EStep (c :: l₁) (c :: l₂)

/-- A chain of exactly `n` single-character edits. -/
inductive Reach : Nat → List Char → List Char → Prop
  | refl (a : List Char) : Reach 0 a a
  | step {n : Nat} {a b c : List Char} : EStep a b → Reach n b c → Reach (n + 1) a c

/-! ## Fuzzy matching (elasticSearch.js lines 251-267) -/

/-- Accumulator pass for `splitWsRuns`: `current` holds the characters of
the run being read, in reverse. -/
def splitWsAux (current : List Char) : List Char → List (List Char)
  | [] => if current = [] then [] else [current.reverse]
  | c :: cs =>
    if c.isWhitespace then
      (if current = [] then [] else [current.reverse]) ++ splitWsAux [] cs
    else splitWsAux (c :: current) cs

/-- The maximal whitespace-free runs of a list, in order. -/
def splitWsRuns (s : List Char) : List (List Char) :=
  splitWsAux [] s

/-- JavaScript `s.split(/\s+/)`: the maximal whitespace-free runs, plus a
leading (resp. trailing) empty string when `s` starts (resp. ends) with
whitespace, and `[""]` for the empty string. -/
def jsSplitWs (s : List Char) : List (List Char) :=
  match s with
  | [] => [[]]
  | c :: _ =>
    (if c.isWhitespace then [([] : List Char)] else []) ++ splitWsRuns s ++
      (if s.getLast?.elim false Char.isWhitespace then [([] : List Char)] else [])

/-- `fuzzyMatch` (elasticSearch.js:251): false when either input normalizes
to empty; true on an exact substring hit; otherwise true when some
whitespace-delimited word of the normalized text is within `maxDistance`
edits of the normalized query.  (`maxDistance` defaults to 2 in the JS
signature; the embedding takes it explicitly.) -/
def fuzzyMatch (text query : List Char) (maxDistance : Nat) : Bool :=
  let normalizedText := normalizeText text
  let normalizedQuery := normalizeText query
  if normalizedText = [] ∨ normalizedQuery = [] then false
  else if jsIncludes normalizedText normalizedQuery then true
  else
    (jsSplitWs normalizedText).any fun word =>
      levenshteinDistance word normalizedQuery ≤ maxDistance

/-! ## Debounce controller (`useDebounce`, the hook shipped alongside the
search utility)

The hook is embedded as a discrete-time event model.  An input burst is a
chronologically ordered list of `(time, value)` change events.  On each
change the effect schedules `setDebouncedValue(value)` for `time + delay`
and its cleanup cancels the previously pending timer, so a pending
emission survives exactly when the next change arrives no earlier than
`time + delay`.  `debounceEmissions` lists the emissions that actually
fire, each as `(fire time, value)`. -/

def debounceEmissions {V : Type} (delay : Nat) : List (Nat × V) → List (Nat × V)
  | [] => []
  | (t, v) :: rest =>
    match rest with
    | [] => [(t + delay, v)]
    | (tNext, _) :: _ =>
      if tNext < t + delay then debounceEmissions delay rest
      else (t + delay, v) :: debounceEmissions delay rest

/-! ## Search engine (elasticSearch.js lines 143-209 and 276-314)

Task records are embedded as association lists from field names to string
values, together with the three metadata fields the search annotates
(`_score`, `_highlights`, `_matched`), each `Option` so that an
unannotated input record is distinguishable from an annotated result. -/

structure JTask where
  fields : List (String × List Char)
  score : Option ℚ
  highlights : Option (List (String × Highlight))
  matched : Option Bool
deriving DecidableEq

/-- `task[field]`: `none` when the record has no such field. -/
def JTask.getField (t : JTask) (field : String) : Option (List Char) :=
  t.fields.lookup field

/-- The `options` object of `elasticSearch` with its defaults
(elasticSearch.js:144-149). -/
structure SearchOptions where
  fields : List String := ["title", "description"]
  minScore : ℚ := 0
  sortByRelevance : Bool := true
  includeHighlights : Bool := false

/-- Accumulator of the `fields.forEach` loop (elasticSearch.js:170-187). -/
structure FieldScan where
  maxScore : ℚ
  highlights : List (String × Highlight)
  matched : Bool
deriving DecidableEq

/-- One iteration of the `fields.forEach` loop: skip falsy or non-matching
field values; otherwise mark the record matched, keep the highest score,
and record the field's highlight when requested. -/
def scanField (task : JTask) (normalizedQuery : List Char) (includeHighlights : Bool)
    (acc : FieldScan) (field : String) : FieldScan :=
  match task.getField field with
  | none => acc
  | some fieldValue =>
    if fieldValue = [] then acc
    else if matchesQuery fieldValue normalizedQuery then
      { maxScore :=
          if acc.maxScore < calculateRelevanceScore fieldValue normalizedQuery then
            calculateRelevanceScore fieldValue normalizedQuery
          else acc.maxScore
        highlights :=
          if includeHighlights then
            acc.highlights ++ [(field, highlightMatches fieldValue normalizedQuery)]
          else acc.highlights
        matched := true }
    else acc

/-- The whole `fields.forEach` loop, starting from
`maxScore = 0, highlights = {}, matched = false`. -/
def scanFields (task : JTask) (normalizedQuery : List Char) (opts : SearchOptions) : FieldScan :=
  opts.fields.foldl (scanField task normalizedQuery opts.includeHighlights)
    { maxScore := 0, highlights := [], matched := false }

/-- The `tasks.map(...).filter(task => task !== null ...)` stage: each task
that matched some field, annotated with `_score`, `_highlights`, `_matched`
(elasticSearch.js:163-200 before the score filter). -/
def elasticMatched (tasks : List JTask) (normalizedQuery : List Char)
    (opts : SearchOptions) : List JTask :=
  tasks.filterMap fun task =>
    let scan := scanFields task normalizedQuery opts
    if scan.matched then
      some { task with
              score := some scan.maxScore
              highlights := some scan.highlights
              matched := some true }
    else none

/-- After the `task._score >= minScore` filter (elasticSearch.js:201). -/
def elasticCandidates (tasks : List JTask) (normalizedQuery : List Char)
    (opts : SearchOptions) : List JTask :=
  (elasticMatched tasks normalizedQuery opts).filter fun task =>
    opts.minScore ≤ task.score.getD 0

/-- The comparator `(a, b) => b._score - a._score` as the "goes before"
relation of a stable sort: `a` may stay before `b` when the comparator is
`≤ 0`, i.e. when `b._score ≤ a._score`. -/
def scoreDescLe (a b : JTask) : Bool :=
  b.score.getD 0 ≤ a.score.getD 0

/-- `elasticSearch` (elasticSearch.js:143): an empty or whitespace-only
query returns every task annotated with `_score: 0, _highlights: {}` in
input order; otherwise the matched, score-filtered tasks, stable-sorted by
descending `_score` when `sortByRelevance` is set (JavaScript
`Array.prototype.sort` is stable per ES2019, embedded as `mergeSort`). -/
def elasticSearch (tasks : List JTask) (query : List Char) (opts : SearchOptions) : List JTask :=
  if query = [] ∨ jsTrim query = [] then
    tasks.map fun task => { task with score := some 0, highlights := some [] }
  else
    let normalizedQuery := normalizeText query
    let results := elasticCandidates tasks normalizedQuery opts
    if opts.sortByRelevance then results.mergeSort scoreDescLe else results

/-- The default field weights of `multiMatchSearch`
(elasticSearch.js:277-281). -/
def defaultWeights : List (String × ℚ) :=
  [("title", 2), ("description", 1), ("priority", 3 / 2)]

/-- The object spread `{...defaultWeights, ...fieldWeights}`: base keys in
order with overridden values, then the caller's new keys. -/
def mergeWeights (base extra : List (String × ℚ)) : List (String × ℚ) :=
  (base.map fun p =>
    match extra.lookup p.1 with
    | some w => (p.1, w)
    | none => p) ++ extra.filter fun p => (base.lookup p.1).isNone

/-- Accumulator of the `Object.entries(weights).forEach` loop. -/
structure WeightScan where
  totalScore : ℚ
  matched : Bool
deriving DecidableEq

/-- `multiMatchSearch` (elasticSearch.js:276): empty/whitespace query
returns the input list itself (no annotation); otherwise the per-record
score is the weighted SUM of the field scores over the merged weights, and
the matched records are always sorted by descending `_score`. -/
def multiMatchSearch (tasks : List JTask) (query : List Char)
    (fieldWeights : List (String × ℚ)) : List JTask :=
  let weights := mergeWeights defaultWeights fieldWeights
  if query = [] ∨ jsTrim query = [] then tasks
  else
    (tasks.filterMap fun task =>
      let scan := weights.foldl (fun (acc : WeightScan) fw =>
        match task.getField fw.1 with
        | none => acc
        | some fieldValue =>
          if fieldValue = [] then acc
          else if matchesQuery fieldValue query then
            { totalScore := acc.totalScore + calculateRelevanceScore fieldValue query * fw.2
              matched := true }
          else acc) { totalScore := 0, matched := false }
      if scan.matched then
        some { task with score := some scan.totalScore, matched := some true }
      else none).mergeSort scoreDescLe

/-! ## Session lifecycle manager (AuthContext.js)

`sessionStorage` is embedded as a `getItem` function that may return a
stored string, `none` for an absent key, or throw (`Except.error`).  The
browser built-ins `atob` and `JSON.parse` used on the token's payload
segment are abstracted as a `parsePayload` parameter returning `none`
whenever the real pipeline would throw or produce a malformed payload.
JavaScript `parseInt` is embedded as `jsParseInt`, returning `none` for
NaN; the code's `Date.now()` calls within one check are idealized as a
single instant `now`. -/

def EXPIRY_TIME : ℤ := 30 * 60 * 1000

def tokenKey : String := "task_manager_token"

def lastActivityKey : String := "task_manager_last_activity"

structure TokenPayload where
  email : String
  name : String
  iat : ℤ
  exp : ℤ
deriving DecidableEq

/-- Splitting helper for `token.split('.')`: `current` holds the segment
being read, in reverse. -/
def splitDotAux (current : List Char) : List Char → List (List Char)
  | [] => [current.reverse]
  | c :: cs =>
    if c = Char.ofNat 46 then current.reverse :: splitDotAux [] cs
    else splitDotAux (c :: current) cs

/-- JavaScript `token.split('.')` (46 is the code point of the dot). -/
def jsSplitDot (s : List Char) : List (List Char) :=
  splitDotAux [] s

/-- `decodeToken` (AuthContext.js:86): split on the dot, require exactly
three segments, then decode the payload segment; any failure yields `null`.
The browser `atob` + `JSON.parse` pipeline on the payload segment is
abstracted as `parsePayload`, returning `none` whenever the real pipeline
would throw. -/
def decodeToken (parsePayload : List Char → Option TokenPayload) (token : List Char) :
    Option TokenPayload :=
  let parts := jsSplitDot token
  if parts.length ≠ 3 then none
  else
    match parts[1]? with
    | some payloadPart => parsePayload payloadPart
    | none => none

/-- The digits-only core of `parseInt`: `none` when no leading digit exists
(48 is the code point of the zero digit). -/
def parseDigits (cs : List Char) : Option Nat :=
  let digits := cs.takeWhile Char.isDigit
  if digits = [] then none
  else some (digits.foldl (fun acc c => acc * 10 + (c.toNat - Char.toNat (Char.ofNat 48))) 0)

/-- JavaScript `parseInt(s)` (radix 10): skip leading whitespace, optional
sign, then leading digits; `none` is NaN. -/
def jsParseInt (s : List Char) : Option ℤ :=
  match s.dropWhile Char.isWhitespace with
  | '-' :: rest => (parseDigits rest).map fun n => -(n : ℤ)
  | '+' :: rest => (parseDigits rest).map fun n => (n : ℤ)
  | rest => (parseDigits rest).map fun n => (n : ℤ)

/-- A `sessionStorage` snapshot whose reads can throw; stored strings are
embedded as character lists like every other string in this development. -/
structure Storage where
  getItem : String → Except String (Option (List Char))

/-- A storage snapshot holding just the two session keys, reads never
throwing. -/
def mkStore (token lastActivity : Option (List Char)) : Storage :=
  ⟨fun key =>
    if key = tokenKey then Except.ok token
    else if key = lastActivityKey then Except.ok lastActivity
    else Except.ok none⟩

/-- The body of `isSessionValid`'s `try` block (AuthContext.js:103-125):
read token and last activity, fail on missing pieces or an undecodable
token, then check `Date.now() > payload.exp` and
`Date.now() - parseInt(lastActivity) > EXPIRY_TIME`.  When `parseInt`
returns NaN both NaN comparisons are false, so the inactivity check is
skipped and the function reaches `return true`.  (The code's two
`Date.now()` calls within one check are idealized as one instant `now`.) -/
def isSessionValidTry (parsePayload : List Char → Option TokenPayload) (store : Storage)
    (now : ℤ) : Except String Bool :=
  match store.getItem tokenKey with
  | Except.error e => Except.error e
  | Except.ok token? =>
    match store.getItem lastActivityKey with
    | Except.error e => Except.error e
    | Except.ok lastActivity? =>
      match token?, lastActivity? with
      | some token, some lastActivity =>
        match decodeToken parsePayload token with
        | none => Except.ok false
        | some payload =>
          if payload.exp < now then Except.ok false
          else
            match jsParseInt lastActivity with
            | none => Except.ok true
            | some n =>
              if EXPIRY_TIME < now - n then Except.ok false else Except.ok true
      | _, _ => Except.ok false

/-- `isSessionValid` (AuthContext.js:102): the `try` block above with the
`catch` clause that turns any thrown storage error into `false`. -/
def isSessionValid (parsePayload : List Char → Option TokenPayload) (store : Storage)
    (now : ℤ) : Bool :=
  match isSessionValidTry parsePayload store now with
  | Except.ok b => b
  | Except.error _ => false

/-- An unannotated one-field input record, for concrete instantiations. -/
def sampleTask : JTask :=
  { fields := [("title", "a".toList)], score := none, highlights := none, matched := none }

/-! ## Session claims -/

/-- A payload decoder for concrete instantiations: the payload segment
`"p"` decodes to a token issued at 0 that expires at 1800000 (thirty
minutes, in milliseconds). -/
def cexParse : List Char → Option TokenPayload := fun s =>
  if s = "p".toList then some { email := "e", name := "n", iat := 0, exp := 1800000 }
  else none

/-- A storage whose every read throws. -/
def throwStore : Storage :=
  ⟨fun _ => Except.error "SecurityError"⟩

/-! ## Search-engine claim machinery

Claim-level reformulations of the `fields.forEach` scan: a field "passes"
when it is present, truthy and accepted by the Match Predicate, and a
matched record's score is the maximum Scorer result over its passing
fields. -/

/-- The record's `field` value exists, is truthy, and passes the Match
Predicate under the (already normalized) query. -/
def fieldPasses (task : JTask) (nq : List Char) (f : String) : Bool :=
  match task.getField f with
  | none => false
  | some v => !v.isEmpty && matchesQuery v nq

/-- The maximum Scorer result over the passing fields (0 when none). -/
def fieldScoreMax (task : JTask) (nq : List Char) (fields : List String) : ℚ :=
  ((fields.filter (fieldPasses task nq)).map
      (fun f => calculateRelevanceScore ((task.getField f).getD []) nq)).foldl max 0

/-- The annotated copy of a matched record, as built at
elasticSearch.js:191-196. -/
def annotateTask (task : JTask) (nq : List Char) (opts : SearchOptions) : JTask :=
  { task with
      score := some (scanFields task nq opts).maxScore
      highlights := some (scanFields task nq opts).highlights
      matched := some true }

/-! ## Theorems -/

theorem levFuel_nil_left (f : Nat) (ys : List Char) : levFuel f [] ys = ys.length := by
  cases f <;> rfl

theorem levFuel_nil_right (f : Nat) (xs : List Char) : levFuel f xs [] = xs.length := by
  cases f <;> cases xs <;> rfl

/-- The value of `levFuel` does not depend on the fuel once the fuel covers
the total length of the two lists. -/
theorem levFuel_irrel :
    ∀ (f₁ f₂ : Nat) (a b : List Char), a.length + b.length ≤ f₁ →
      a.length + b.length ≤ f₂ → levFuel f₁ a b = levFuel f₂ a b := by
  intro f₁
  induction f₁ using Nat.strong_induction_on with
  | _ f₁ ih =>
    intro f₂ a b h₁ h₂
    match f₁, f₂, a, b with
    | g₁, g₂, [], ys => rw [levFuel_nil_left, levFuel_nil_left]
    | g₁, g₂, x :: xs, [] => rw [levFuel_nil_right, levFuel_nil_right]
    | g₁ + 1, g₂ + 1, x :: xs, y :: ys =>
      simp only [levFuel]
      simp only [List.length_cons] at h₁ h₂
      have e₁ : levFuel g₁ xs ys = levFuel g₂ xs ys :=
        ih g₁ (by omega) g₂ xs ys (by omega) (by omega)
      have e₂ : levFuel g₁ xs (y :: ys) = levFuel g₂ xs (y :: ys) :=
        ih g₁ (by omega) g₂ xs (y :: ys) (by simp only [List.length_cons]; omega)
          (by simp only [List.length_cons]; omega)
      have e₃ : levFuel g₁ (x :: xs) ys = levFuel g₂ (x :: xs) ys :=
        ih g₁ (by omega) g₂ (x :: xs) ys (by simp only [List.length_cons]; omega)
          (by simp only [List.length_cons]; omega)
      rw [e₁, e₂, e₃]

theorem lev_nil_left (ys : List Char) : lev [] ys = ys.length :=
  levFuel_nil_left _ ys

theorem lev_nil_right (xs : List Char) : lev xs [] = xs.length :=
  levFuel_nil_right _ xs

/-- The textbook recurrence, fuel eliminated. -/
theorem lev_cons_cons (x y : Char) (xs ys : List Char) :
    lev (x :: xs) (y :: ys) =
      if x = y then lev xs ys
      else min (min (lev xs ys + 1) (lev xs (y :: ys) + 1)) (lev (x :: xs) ys + 1) := by
  show levFuel (xs.length + 1 + (ys.length + 1)) (x :: xs) (y :: ys) = _
  have huge : xs.length + 1 + (ys.length + 1) = (xs.length + ys.length + 1) + 1 := by omega
  rw [huge]
  simp only [levFuel]
  have e₁ : levFuel (xs.length + ys.length + 1) xs ys = lev xs ys :=
    levFuel_irrel _ _ _ _ (by omega) (by omega)
  have e₂ : levFuel (xs.length + ys.length + 1) xs (y :: ys) = lev xs (y :: ys) :=
    levFuel_irrel _ _ _ _ (by simp only [List.length_cons]; omega)
      (by simp only [List.length_cons]; omega)
  have e₃ : levFuel (xs.length + ys.length + 1) (x :: xs) ys = lev (x :: xs) ys :=
    levFuel_irrel _ _ _ _ (by simp only [List.length_cons]; omega)
      (by simp only [List.length_cons]; omega)
  rw [e₁, e₂, e₃]

theorem lev_self (a : List Char) : lev a a = 0 := by
  induction a with
  | nil => rfl
  | cons x xs ih => rw [lev_cons_cons, if_pos rfl, ih]

theorem lev_comm (a : List Char) : ∀ b, lev a b = lev b a := by
  induction a with
  | nil => intro b; rw [lev_nil_left, lev_nil_right]
  | cons x xs ihx =>
    intro b
    induction b with
    | nil => rw [lev_nil_left, lev_nil_right]
    | cons y ys ihy =>
      rw [lev_cons_cons, lev_cons_cons, ihx ys, ihx (y :: ys), ← ihy]
      by_cases hxy : x = y
      · rw [if_pos hxy, if_pos hxy.symm]
      · rw [if_neg hxy, if_neg (fun h => hxy h.symm)]
        omega

theorem EStep.length_le {a b : List Char} (h : EStep a b) : a.length ≤ b.length + 1 := by
  induction h with
  | ins c l =>
    simp only [List.length_cons]
    omega
  | del c l =>
    simp only [List.length_cons]
    omega
  | sub c d l =>
    simp only [List.length_cons]
    omega
  | cong c _ ih =>
    simp only [List.length_cons]
    omega

theorem Reach.cons {n : Nat} {a b : List Char} (c : Char) (h : Reach n a b) :
    Reach n (c :: a) (c :: b) := by
  induction h with
  | refl a => exact Reach.refl (c :: a)
  | step e _ ih => exact Reach.step (EStep.cong c e) ih

theorem Reach.trans {m n : Nat} {a b c : List Char} (h₁ : Reach m a b) (h₂ : Reach n b c) :
    Reach (m + n) a c := by
  induction h₁ with
  | refl a => simpa using h₂
  | step e _ ih => simpa [Nat.succ_add] using Reach.step e (ih h₂)

/-- Adding a character in front of either argument changes the distance by at
most one (the two directions that are not immediate from the recurrence),
proved jointly by strong induction on the total length. -/
theorem lev_head_bounds :
    ∀ (n : Nat) (a c : List Char), a.length + c.length ≤ n →
      (∀ x : Char, lev a c ≤ 1 + lev (x :: a) c) ∧
      (∀ y : Char, lev a (y :: c) ≤ 1 + lev a c) := by
  intro n
  induction n using Nat.strong_induction_on with
  | _ n ih =>
    intro a c hn
    constructor
    · intro x
      match c with
      | [] =>
        rw [lev_nil_right, lev_nil_right]
        simp only [List.length_cons]
        omega
      | w :: ws =>
        have hsz : a.length + ws.length ≤ n - 1 := by
          simp only [List.length_cons] at hn; omega
        have hlt : n - 1 < n := by
          simp only [List.length_cons] at hn; omega
        have h4 : lev a (w :: ws) ≤ 1 + lev a ws :=
          (ih (n - 1) hlt a ws hsz).2 w
        rw [lev_cons_cons]
        by_cases hxw : x = w
        · rw [if_pos hxw]
          exact h4
        · rw [if_neg hxw]
          have h1 : lev a ws ≤ 1 + lev (x :: a) ws :=
            (ih (n - 1) hlt a ws hsz).1 x
          omega
    · intro y
      match a with
      | [] =>
        rw [lev_nil_left, lev_nil_left]
        simp only [List.length_cons]
        omega
      | x :: xs =>
        have hsz : xs.length + c.length ≤ n - 1 := by
          simp only [List.length_cons] at hn; omega
        have hlt : n - 1 < n := by
          simp only [List.length_cons] at hn; omega
        rw [lev_cons_cons]
        by_cases hxy : x = y
        · rw [if_pos hxy]
          subst hxy
          exact (ih (n - 1) hlt xs c hsz).1 x
        · rw [if_neg hxy]
          omega

theorem lev_le_cons_left (x : Char) (a c : List Char) : lev a c ≤ 1 + lev (x :: a) c :=
  (lev_head_bounds (a.length + c.length) a c le_rfl).1 x

theorem lev_cons_right_le (y : Char) (a c : List Char) : lev a (y :: c) ≤ 1 + lev a c :=
  (lev_head_bounds (a.length + c.length) a c le_rfl).2 y

theorem lev_le_cons_right (y : Char) (a c : List Char) : lev a c ≤ 1 + lev a (y :: c) := by
  rw [lev_comm a c, lev_comm a (y :: c)]
  exact lev_le_cons_left y c a

theorem lev_cons_left_le (x : Char) (a c : List Char) : lev (x :: a) c ≤ 1 + lev a c := by
  rw [lev_comm (x :: a) c, lev_comm a c]
  exact lev_cons_right_le x c a

/-- Substituting the head character changes the distance by at most one. -/
theorem lev_sub_head (c₁ c₂ : Char) : ∀ (u a : List Char), lev (c₁ :: a) u ≤ 1 + lev (c₂ :: a) u := by
  intro u
  induction u with
  | nil =>
    intro a
    rw [lev_nil_right, lev_nil_right]
    simp only [List.length_cons]
    omega
  | cons w ws ihw =>
    intro a
    rw [lev_cons_cons, lev_cons_cons]
    by_cases h₁ : c₁ = w <;> by_cases h₂ : c₂ = w
    · rw [if_pos h₁, if_pos h₂]
      omega
    · rw [if_pos h₁, if_neg h₂]
      have b₁ : lev a ws ≤ 1 + lev a (w :: ws) := lev_le_cons_right w a ws
      have b₂ : lev a ws ≤ 1 + lev (c₂ :: a) ws := lev_le_cons_left c₂ a ws
      omega
    · rw [if_neg h₁, if_pos h₂]
      omega
    · rw [if_neg h₁, if_neg h₂]
      have b₃ : lev (c₁ :: a) ws ≤ 1 + lev (c₂ :: a) ws := ihw a
      omega

/-- One edit of the left argument changes the distance by at most one. -/
theorem EStep.lev_le {a b : List Char} (h : EStep a b) : ∀ u, lev a u ≤ 1 + lev b u := by
  induction h with
  | ins c l => exact fun u => lev_le_cons_left c l u
  | del c l => exact fun u => lev_cons_left_le c l u
  | sub c d l => exact fun u => lev_sub_head c d u l
  | cong ch hstep ih =>
    rename_i l₁ l₂
    intro u
    induction u with
    | nil =>
      rw [lev_nil_right, lev_nil_right]
      have := hstep.length_le
      simp only [List.length_cons]
      omega
    | cons w ws ihw =>
      rw [lev_cons_cons, lev_cons_cons]
      by_cases hcw : ch = w
      · rw [if_pos hcw, if_pos hcw]
        exact ih ws
      · rw [if_neg hcw, if_neg hcw]
        have b₁ : lev l₁ ws ≤ 1 + lev l₂ ws := ih ws
        have b₂ : lev l₁ (w :: ws) ≤ 1 + lev l₂ (w :: ws) := ih (w :: ws)
        omega

/-- `lev a b` edits always suffice to turn `a` into `b`. -/
theorem reach_lev : ∀ (a b : List Char), Reach (lev a b) a b := by
  intro a
  induction a with
  | nil =>
    intro b
    rw [lev_nil_left]
    induction b with
    | nil => exact Reach.refl []
    | cons y ys ihy => exact Reach.step (EStep.ins y []) (ihy.cons y)
  | cons x xs ihx =>
    intro b
    induction b with
    | nil =>
      rw [lev_nil_right]
      have h₀ := ihx []
      rw [lev_nil_right] at h₀
      simp only [List.length_cons]
      exact Reach.step (EStep.del x xs) h₀
    | cons y ys ihy =>
      rw [lev_cons_cons]
      by_cases hxy : x = y
      · rw [if_pos hxy]
        subst hxy
        exact (ihx ys).cons x
      · rw [if_neg hxy]
        rcases min_cases (min (lev xs ys + 1) (lev xs (y :: ys) + 1)) (lev (x :: xs) ys + 1) with
          ⟨hmin, _⟩ | ⟨hmin, _⟩
        · rw [hmin]
          rcases min_cases (lev xs ys + 1) (lev xs (y :: ys) + 1) with ⟨hm, _⟩ | ⟨hm, _⟩
          · rw [hm]
            exact Reach.step (EStep.sub x y xs) ((ihx ys).cons y)
          · rw [hm]
            exact Reach.step (EStep.del x xs) (ihx (y :: ys))
        · rw [hmin]
          exact Reach.step (EStep.ins y (x :: xs)) (ihy.cons y)

/-- No chain of edits from `a` to `b` is shorter than `lev a b`. -/
theorem reach_lev_le : ∀ {n : Nat} {a b : List Char}, Reach n a b → lev a b ≤ n := by
  intro n a b h
  induction h with
  | refl a => rw [lev_self]
  | @step m u v w e r ih =>
    have h₂ := e.lev_le w
    omega

/-- The distance satisfies the triangle inequality. -/
theorem lev_triangle (a b c : List Char) : lev a c ≤ lev a b + lev b c :=
  reach_lev_le ((reach_lev a b).trans (reach_lev b c))

theorem EStep.snoc_ins (c : Char) : ∀ (l : List Char), EStep l (l ++ [c])
  | [] => EStep.ins c []
  | x :: xs => EStep.cong x (EStep.snoc_ins c xs)

theorem EStep.snoc_del (c : Char) : ∀ (l : List Char), EStep (l ++ [c]) l
  | [] => EStep.del c []
  | x :: xs => EStep.cong x (EStep.snoc_del c xs)

theorem EStep.snoc_sub (c d : Char) : ∀ (l : List Char), EStep (l ++ [c]) (l ++ [d])
  | [] => EStep.sub c d []
  | x :: xs => EStep.cong x (EStep.snoc_sub c d xs)

theorem EStep.append_cong (u : List Char) {l₁ l₂ : List Char} (h : EStep l₁ l₂) :
    EStep (l₁ ++ u) (l₂ ++ u) := by
  induction h with
  | ins c l => exact EStep.ins c (l ++ u)
  | del c l => exact EStep.del c (l ++ u)
  | sub c d l => exact EStep.sub c d (l ++ u)
  | cong c _ ih => exact EStep.cong c ih

theorem estep_reverse {a b : List Char} (h : EStep a b) : EStep a.reverse b.reverse := by
  induction h with
  | ins c l => simpa [List.reverse_cons] using EStep.snoc_ins c l.reverse
  | del c l => simpa [List.reverse_cons] using EStep.snoc_del c l.reverse
  | sub c d l => simpa [List.reverse_cons] using EStep.snoc_sub c d l.reverse
  | cong c _ ih => simpa [List.reverse_cons] using ih.append_cong [c]

theorem reach_reverse {n : Nat} {a b : List Char} (h : Reach n a b) :
    Reach n a.reverse b.reverse := by
  induction h with
  | refl a => exact Reach.refl a.reverse
  | step e _ ih => exact Reach.step (estep_reverse e) ih

/-- The distance is invariant under reversing both strings, so the dp table
over prefixes computes the same value as the recursion over suffixes. -/
theorem lev_reverse (a b : List Char) : lev a.reverse b.reverse = lev a b := by
  apply Nat.le_antisymm
  · exact reach_lev_le (reach_reverse (reach_lev a b))
  · have h := reach_lev_le (reach_reverse (reach_lev a.reverse b.reverse))
    simpa using h

/-- `levenshteinDistance` agrees with the suffix recursion on the original,
unreversed strings. -/
theorem levenshteinDistance_eq_lev (a b : List Char) : levenshteinDistance a b = lev a b :=
  lev_reverse a b

/-! ## Scorer lemmas -/

/-- Unpacking a positive `matchesQuery` verdict for a non-empty query. -/
theorem matchesQuery_extract {text query : List Char} (hq : normalizeText query ≠ [])
    (hm : matchesQuery text query = true) :
    normalizeText text ≠ [] ∧ jsIncludes (normalizeText text) (normalizeText query) = true := by
  simp only [matchesQuery] at hm
  rw [if_neg hq] at hm
  by_cases ht : normalizeText text = []
  · rw [if_pos ht] at hm
    exact absurd hm (by simp)
  · rw [if_neg ht] at hm
    exact ⟨ht, hm⟩

theorem calculateRelevanceScore_nonneg (text query : List Char) :
    0 ≤ calculateRelevanceScore text query := by
  simp only [calculateRelevanceScore]
  split
  · exact le_refl 0
  · refine le_min (add_nonneg ?_ ?_) (by norm_num)
    · split
      · norm_num
      · split
        · norm_num
        · split
          · norm_num
          · split <;> norm_num
    · exact mul_nonneg (div_nonneg (Nat.cast_nonneg _) (Nat.cast_nonneg _)) (by norm_num)

theorem calculateRelevanceScore_le_100 (text query : List Char) :
    calculateRelevanceScore text query ≤ 100 := by
  simp only [calculateRelevanceScore]
  split
  · norm_num
  · exact min_le_right _ _

/-- A matched pair with non-empty normalized query scores at least the
substring rule's base of 40. -/
theorem calculateRelevanceScore_ge_40 {text query : List Char}
    (hq : normalizeText query ≠ []) (hm : matchesQuery text query = true) :
    40 ≤ calculateRelevanceScore text query := by
  obtain ⟨ht, hincl⟩ := matchesQuery_extract hq hm
  simp only [calculateRelevanceScore]
  rw [if_neg (by simp [ht, hq])]
  refine le_min ?_ (by norm_num)
  have hbonus :
      0 ≤ ((normalizeText query).length : ℚ) / ((normalizeText text).length : ℚ) * 20 :=
    mul_nonneg (div_nonneg (Nat.cast_nonneg _) (Nat.cast_nonneg _)) (by norm_num)
  rw [if_pos hincl]
  split
  · linarith
  · split
    · linarith
    · split
      · linarith
      · linarith

/-- A text whose normalization is non-empty scores 100 against itself. -/
theorem calculateRelevanceScore_self {text : List Char} (ht : normalizeText text ≠ []) :
    calculateRelevanceScore text text = 100 := by
  simp only [calculateRelevanceScore]
  rw [if_neg (by simp [ht])]
  have hlen : ((normalizeText text).length : ℚ) ≠ 0 := by
    have hpos : 0 < (normalizeText text).length := List.length_pos.mpr ht
    exact_mod_cast Nat.pos_iff_ne_zero.mp hpos
  rw [if_pos trivial, div_self hlen, one_mul]
  exact min_eq_right (by norm_num)

/-- C2 (amended): the scorer equals the specification's reference
definition, always lands in `[0, 100]`, and gives a text whose
NORMALIZATION is non-empty the full score 100 against itself (a non-empty
but whitespace-only text normalizes to empty and scores 0 instead — see
the counterexample). -/
theorem scorer_contract (text query : List Char) :
    calculateRelevanceScore text query = relevanceScoreSpec text query ∧
    0 ≤ calculateRelevanceScore text query ∧
    calculateRelevanceScore text query ≤ 100 ∧
    (normalizeText text ≠ [] → calculateRelevanceScore text text = 100) :=
  ⟨rfl, calculateRelevanceScore_nonneg text query, calculateRelevanceScore_le_100 text query,
    fun ht => calculateRelevanceScore_self ht⟩

/-- C2 counterexample: the single-space text is non-empty, yet
`score(" ", " ")` is 0, not 100, because it normalizes to the empty
string and the empty-normalization guard fires first. -/
theorem scorer_self_whitespace_counterexample :
    ([' '] : List Char) ≠ [] ∧ calculateRelevanceScore [' '] [' '] = 0 ∧ (0 : ℚ) ≠ 100 :=
  ⟨by decide, by decide, by decide⟩

/-- Witness for `scorer_contract` at a concrete text. -/
theorem scorer_contract_witness :
    normalizeText "hello".toList ≠ [] ∧
    calculateRelevanceScore "hello".toList "hello".toList = 100 :=
  ⟨by decide, (scorer_contract "hello".toList "hello".toList).2.2.2 (by decide)⟩

/-- C3: evaluating the highlighter on text `"aaa"`, query `"aa"`.  The scan
records the two OVERLAPPING spans `[0, 2)` and `[1, 3)` (the cursor
advances by one position, not past the match), and the returned
`highlighted` string wraps only the first span, because every iteration of
the wrap loop rebuilds its output from the original `text`, discarding the
previous iteration's markup. -/
theorem highlighter_eval :
    (highlightMatches "aaa".toList "aa".toList).spans =
      [{ start := 0, stop := 2, text := "aa".toList },
        { start := 1, stop := 3, text := "aa".toList }] ∧
    (highlightMatches "aaa".toList "aa".toList).highlighted = "<mark>aa</mark>a".toList ∧
    (highlightMatches "aaa".toList "aa".toList).matchCount = some 2 :=
  ⟨by decide, by decide, by decide⟩

/-- C10: an empty or whitespace-only query makes `multiMatchSearch` return
the input list itself, untouched (no `_score`, no `_matched` added), while
`elasticSearch` returns every record re-built with `_score: 0` and empty
`_highlights`. -/
theorem multiMatch_empty_query (tasks : List JTask) (query : List Char)
    (fieldWeights : List (String × ℚ)) (opts : SearchOptions)
    (h : jsTrim query = []) :
    multiMatchSearch tasks query fieldWeights = tasks ∧
    elasticSearch tasks query opts =
      tasks.map fun t => { t with score := some 0, highlights := some [] } := by
  constructor
  · simp only [multiMatchSearch]
    rw [if_pos (Or.inr h)]
  · simp only [elasticSearch]
    rw [if_pos (Or.inr h)]

/-- Witness for `multiMatch_empty_query` on a one-record list and a
whitespace query: the unannotated input comes back unchanged from
`multiMatchSearch` but annotated from `elasticSearch`. -/
theorem multiMatch_empty_query_witness :
    multiMatchSearch [sampleTask] [' '] [] = [sampleTask] ∧
    elasticSearch [sampleTask] [' '] {} =
      [{ sampleTask with score := some 0, highlights := some [] }] :=
  multiMatch_empty_query [sampleTask] [' '] [] {} (by decide)

/-- C4 (amended): when both normalizations are non-empty, `fuzzyMatch` is
exactly "substring hit or some whitespace-delimited word within
`maxDistance` edits of the query"; when either normalization is empty it
returns `false` (even though the Match Predicate accepts an empty query —
see the counterexample); and the spec's scenario C holds. -/
theorem fuzzy_match_contract (text query : List Char) (maxDistance : Nat) :
    ((normalizeText text = [] ∨ normalizeText query = []) →
      fuzzyMatch text query maxDistance = false) ∧
    (normalizeText text ≠ [] → normalizeText query ≠ [] →
      (fuzzyMatch text query maxDistance = true ↔
        (matchesQuery text query = true ∨
          ∃ word ∈ jsSplitWs (normalizeText text),
            levenshteinDistance word (normalizeText query) ≤ maxDistance))) ∧
    fuzzyMatch "recieve the package".toList "receive".toList 2 = true ∧
    matchesQuery "recieve the package".toList "receive".toList = false := by
  refine ⟨?_, ?_, by decide, by decide⟩
  · intro h
    simp only [fuzzyMatch]
    rw [if_pos h]
  · intro ht hq
    simp only [fuzzyMatch]
    rw [if_neg (by simp [ht, hq])]
    have hmq : matchesQuery text query =
        jsIncludes (normalizeText text) (normalizeText query) := by
      simp only [matchesQuery]
      rw [if_neg hq, if_neg ht]
    by_cases hincl : jsIncludes (normalizeText text) (normalizeText query) = true
    · rw [if_pos hincl]
      constructor
      · intro _
        exact Or.inl (hmq.trans hincl)
      · intro _
        rfl
    · rw [if_neg hincl]
      rw [List.any_eq_true]
      constructor
      · rintro ⟨w, hw, hd⟩
        exact Or.inr ⟨w, hw, by simpa using hd⟩
      · rintro (hsub | ⟨w, hw, hd⟩)
        · exact absurd (hmq.symm.trans hsub) hincl
        · exact ⟨w, hw, by simpa using hd⟩

/-- C4 counterexample: with the empty query, the Match Predicate accepts
every text, but `fuzzyMatch` returns `false`, so "substring predicate
matches ⇒ fuzzyMatch" fails. -/
theorem fuzzy_match_empty_query_counterexample :
    matchesQuery "a".toList [] = true ∧ fuzzyMatch "a".toList [] 2 = false :=
  ⟨by decide, by decide⟩

/-- Witness for `fuzzy_match_contract`: the empty-normalization branch and
the two-sided characterization, both at concrete inputs. -/
theorem fuzzy_match_contract_witness :
    fuzzyMatch [' '] "x".toList 2 = false ∧
    (fuzzyMatch "recieve the package".toList "receive".toList 2 = true ↔
      (matchesQuery "recieve the package".toList "receive".toList = true ∨
        ∃ word ∈ jsSplitWs (normalizeText "recieve the package".toList),
          levenshteinDistance word (normalizeText "receive".toList) ≤ 2)) :=
  ⟨(fuzzy_match_contract [' '] "x".toList 2).1 (by decide),
    (fuzzy_match_contract "recieve the package".toList "receive".toList 2).2.1
      (by decide) (by decide)⟩

/-- C5 (amended): for a stored session whose token is present and
parseable and whose last-activity timestamp is present and numeric, the
check succeeds iff `now ≤ expiresAt` AND `now - lastActivityAt ≤` the
30-minute window — the code invalidates only on the STRICT comparisons
`now > exp` and `now - lastActivity > EXPIRY_TIME`, so the session is
still reported valid at either exact boundary instant (the claim's strict
`<` reading fails there, see the counterexample).  The claim's two
concrete scenarios (valid at T+29min with activity at T+28min, invalid at
T+31min with no activity) follow and are instantiated in the witness. -/
theorem session_validity_window (parse : List Char → Option TokenPayload) (store : Storage)
    (now : ℤ) (token lastActivity : List Char) (payload : TokenPayload) (n : ℤ)
    (htok : store.getItem tokenKey = Except.ok (some token))
    (hla : store.getItem lastActivityKey = Except.ok (some lastActivity))
    (hdec : decodeToken parse token = some payload)
    (hn : jsParseInt lastActivity = some n) :
    isSessionValid parse store now = true ↔
      now ≤ payload.exp ∧ now - n ≤ EXPIRY_TIME := by
  have hTry : isSessionValidTry parse store now =
      Except.ok (if payload.exp < now then false
        else if EXPIRY_TIME < now - n then false else true) := by
    simp only [isSessionValidTry, htok, hla, hdec, hn]
    by_cases h₁ : payload.exp < now
    · simp [h₁]
    · by_cases h₂ : EXPIRY_TIME < now - n
      · simp [h₁, h₂]
      · simp [h₁, h₂]
  simp only [isSessionValid, hTry]
  by_cases h₁ : payload.exp < now
  · rw [if_pos h₁]
    simp only [Bool.false_eq_true, false_iff]
    intro hand
    omega
  · rw [if_neg h₁]
    by_cases h₂ : EXPIRY_TIME < now - n
    · rw [if_pos h₂]
      simp only [Bool.false_eq_true, false_iff]
      intro hand
      omega
    · rw [if_neg h₂]
      constructor
      · intro _
        exact ⟨by omega, by omega⟩
      · intro _
        rfl

/-- C5 counterexample: at the exact expiry instant `now = expiresAt`
(token issued at 0, expiring at 1800000, activity at 0, checked at
1800000) the code reports the session VALID, while the claimed invariant
`valid ↔ now < expiresAt ∧ now - lastActivityAt < window` calls it
invalid (both strict comparisons fail). -/
theorem session_boundary_counterexample :
    isSessionValid cexParse (mkStore (some "h.p.s".toList) (some "0".toList)) 1800000 = true ∧
    ¬((1800000 : ℤ) < 1800000) :=
  ⟨by decide, by decide⟩

/-- Witness for `session_validity_window`: the claim's own two scenarios.
A session issued at 0 with a 30-minute expiry is valid at minute 29 given
activity at minute 28, and invalid at minute 31 with no activity since
issue time. -/
theorem session_validity_window_witness :
    isSessionValid cexParse
      (mkStore (some "h.p.s".toList) (some "1680000".toList)) 1740000 = true ∧
    isSessionValid cexParse (mkStore (some "h.p.s".toList) (some "0".toList)) 1860000 = false := by
  constructor
  · exact (session_validity_window cexParse
      (mkStore (some "h.p.s".toList) (some "1680000".toList)) 1740000
      "h.p.s".toList "1680000".toList
      { email := "e", name := "n", iat := 0, exp := 1800000 } 1680000
      rfl rfl (by decide) (by decide)).mpr ⟨by decide, by decide⟩
  · have hiff := session_validity_window cexParse
      (mkStore (some "h.p.s".toList) (some "0".toList)) 1860000
      "h.p.s".toList "0".toList
      { email := "e", name := "n", iat := 0, exp := 1800000 } 0
      rfl rfl (by decide) (by decide)
    cases hb : isSessionValid cexParse
        (mkStore (some "h.p.s".toList) (some "0".toList)) 1860000 with
    | false => rfl
    | true => exact absurd (hiff.mp hb).1 (by decide)

/-- C8 (amended): every session-check failure of the claimed kinds EXCEPT
a non-numeric timestamp fails closed — a thrown storage read, a missing
token, a missing last-activity value, and an undecodable token all make
`isSessionValid` return `false`, and a thrown error never escapes the
check (the `catch` turns it into `false`).  A non-numeric last-activity
string, however, parses to NaN, both NaN comparisons are false, and the
inactivity check is silently skipped — see the counterexample. -/
theorem session_check_fail_closed (parse : List Char → Option TokenPayload)
    (store : Storage) (now : ℤ) :
    (∀ msg, isSessionValidTry parse store now = Except.error msg →
      isSessionValid parse store now = false) ∧
    (store.getItem tokenKey = Except.ok none → isSessionValid parse store now = false) ∧
    (∀ msg, store.getItem tokenKey = Except.error msg →
      isSessionValid parse store now = false) ∧
    (store.getItem lastActivityKey = Except.ok none →
      isSessionValid parse store now = false) ∧
    (∀ msg, store.getItem lastActivityKey = Except.error msg →
      isSessionValid parse store now = false) ∧
    (∀ token, store.getItem tokenKey = Except.ok (some token) →
      decodeToken parse token = none → isSessionValid parse store now = false) := by
  refine ⟨?_, ?_, ?_, ?_, ?_, ?_⟩
  · intro msg h
    simp [isSessionValid, h]
  · intro h
    cases hla : store.getItem lastActivityKey with
    | error e => simp [isSessionValid, isSessionValidTry, h, hla]
    | ok w => cases w <;> simp [isSessionValid, isSessionValidTry, h, hla]
  · intro msg h
    simp [isSessionValid, isSessionValidTry, h]
  · intro h
    cases htok : store.getItem tokenKey with
    | error e => simp [isSessionValid, isSessionValidTry, htok]
    | ok w => cases w <;> simp [isSessionValid, isSessionValidTry, htok, h]
  · intro msg h
    cases htok : store.getItem tokenKey with
    | error e => simp [isSessionValid, isSessionValidTry, htok]
    | ok w => simp [isSessionValid, isSessionValidTry, htok, h]
  · intro token htok hdec
    cases hla : store.getItem lastActivityKey with
    | error e => simp [isSessionValid, isSessionValidTry, htok, hla]
    | ok w => cases w <;> simp [isSessionValid, isSessionValidTry, htok, hla, hdec]

/-- C8 counterexample: a storage state whose last-activity value `"abc"`
fails to parse (NaN) is NOT treated as "no valid session": with an
otherwise valid token the check returns `true`, because
`Date.now() - NaN` is NaN and `NaN > EXPIRY_TIME` is false. -/
theorem session_nan_timestamp_counterexample :
    isSessionValid cexParse (mkStore (some "h.p.s".toList) (some "abc".toList)) 100 = true ∧
    jsParseInt "abc".toList = none :=
  ⟨by decide, by decide⟩

/-- Witness for `session_check_fail_closed`: a throwing storage and an
empty storage both yield `false`. -/
theorem session_check_fail_closed_witness :
    isSessionValid cexParse throwStore 0 = false ∧
    isSessionValid cexParse (mkStore none none) 0 = false :=
  ⟨(session_check_fail_closed cexParse throwStore 0).2.2.1 "SecurityError" rfl,
    (session_check_fail_closed cexParse (mkStore none none) 0).2.1 rfl⟩

/-! ## Edit-distance claims -/

/-- C6: the edit-distance engine is a metric on strings — zero on equal
arguments, symmetric, and satisfying the triangle inequality (values are
non-negative integers by type) — and it computes the minimum number of
single-character insertions, deletions and substitutions: `lev A B` edits
reach `B` from `A` (`Reach`), and no shorter edit chain exists. -/
theorem edit_distance_metric (A B C : List Char) :
    levenshteinDistance A A = 0 ∧
    levenshteinDistance A B = levenshteinDistance B A ∧
    levenshteinDistance A C ≤ levenshteinDistance A B + levenshteinDistance B C ∧
    Reach (levenshteinDistance A B) A B ∧
    (∀ n, Reach n A B → levenshteinDistance A B ≤ n) := by
  refine ⟨?_, ?_, ?_, ?_, ?_⟩
  · rw [levenshteinDistance_eq_lev, lev_self]
  · rw [levenshteinDistance_eq_lev, levenshteinDistance_eq_lev, lev_comm]
  · rw [levenshteinDistance_eq_lev, levenshteinDistance_eq_lev, levenshteinDistance_eq_lev]
    exact lev_triangle A B C
  · rw [levenshteinDistance_eq_lev]
    exact reach_lev A B
  · intro n h
    rw [levenshteinDistance_eq_lev]
    exact reach_lev_le h

/-- Witness for `edit_distance_metric`: minimality applied to an explicit
one-edit chain, and the reflexivity instance, at concrete strings. -/
theorem edit_distance_metric_witness :
    levenshteinDistance "ab".toList "b".toList ≤ 1 ∧
    levenshteinDistance "ab".toList "ab".toList = 0 :=
  ⟨(edit_distance_metric "ab".toList "b".toList "b".toList).2.2.2.2 1
      (Reach.step (EStep.del 'a' "b".toList) (Reach.refl "b".toList)),
    (edit_distance_metric "ab".toList "b".toList "b".toList).1⟩

/-! ## Debounce claims -/

/-- Soundness of the debounce model: every emission arises from an input
event, fires exactly `delay` after it, carries that event's value, and no
other input falls strictly inside the waiting window (so the input was
stable for the full delay, and the emitted value is the last value of its
burst). -/
theorem debounceEmissions_sound {V : Type} (delay : Nat) :
    ∀ (events : List (Nat × V)), events.Pairwise (fun e f => e.1 < f.1) →
      ∀ em ∈ debounceEmissions delay events,
        ∃ e ∈ events, em = (e.1 + delay, e.2) ∧
          ∀ f ∈ events, ¬(e.1 < f.1 ∧ f.1 < e.1 + delay) := by
  intro events
  induction events with
  | nil =>
    intro _ em hem
    cases hem
  | cons head rest ih =>
    obtain ⟨t, v⟩ := head
    intro hp em hem
    obtain ⟨hhead, hrest⟩ := List.pairwise_cons.mp hp
    cases rest with
    | nil =>
      simp only [debounceEmissions, List.mem_singleton] at hem
      refine ⟨(t, v), List.mem_cons_self _ _, hem, ?_⟩
      intro f hf
      rcases List.mem_singleton.mp hf with rfl
      omega
    | cons next rest' =>
      obtain ⟨t₂, v₂⟩ := next
      simp only [debounceEmissions] at hem
      by_cases hlt : t₂ < t + delay
      · rw [if_pos hlt] at hem
        obtain ⟨e, hmem, heq, hquiet⟩ := ih hrest em hem
        refine ⟨e, List.mem_cons_of_mem _ hmem, heq, ?_⟩
        intro f hf
        rcases List.mem_cons.mp hf with rfl | hf'
        · have := hhead e hmem
          omega
        · exact hquiet f hf'
      · rw [if_neg hlt] at hem
        rcases List.mem_cons.mp hem with rfl | hem'
        · refine ⟨(t, v), List.mem_cons_self _ _, rfl, ?_⟩
          intro f hf
          rcases List.mem_cons.mp hf with rfl | hf'
          · omega
          · have h₂ : t₂ ≤ f.1 := by
              rcases List.mem_cons.mp hf' with rfl | hf''
              · exact le_refl _
              · exact le_of_lt ((List.pairwise_cons.mp hrest).1 f hf'')
            omega
        · obtain ⟨e, hmem, heq, hquiet⟩ := ih hrest em hem'
          refine ⟨e, List.mem_cons_of_mem _ hmem, heq, ?_⟩
          intro f hf
          rcases List.mem_cons.mp hf with rfl | hf'
          · have := hhead e hmem
            omega
          · exact hquiet f hf'

/-- Completeness of the debounce model: an input event followed by a full
quiet window always produces its emission. -/
theorem debounceEmissions_complete {V : Type} (delay : Nat) :
    ∀ (events : List (Nat × V)), events.Pairwise (fun e f => e.1 < f.1) →
      ∀ e ∈ events, (∀ f ∈ events, ¬(e.1 < f.1 ∧ f.1 < e.1 + delay)) →
        (e.1 + delay, e.2) ∈ debounceEmissions delay events := by
  intro events
  induction events with
  | nil =>
    intro _ e he
    cases he
  | cons head rest ih =>
    obtain ⟨t, v⟩ := head
    intro hp e he hquiet
    obtain ⟨hhead, hrest⟩ := List.pairwise_cons.mp hp
    cases rest with
    | nil =>
      rcases List.mem_singleton.mp he with rfl
      simp only [debounceEmissions, List.mem_singleton]
    | cons next rest' =>
      obtain ⟨t₂, v₂⟩ := next
      simp only [debounceEmissions]
      rcases List.mem_cons.mp he with rfl | hin
      · have ht₂ : ¬ t₂ < t + delay := by
          have h1 := hquiet (t₂, v₂) (List.mem_cons_of_mem _ (List.mem_cons_self _ _))
          have h2 := hhead (t₂, v₂) (List.mem_cons_self _ _)
          simp only at h1 h2
          omega
        rw [if_neg ht₂]
        exact List.mem_cons_self _ _
      · have hq' : ∀ f ∈ (t₂, v₂) :: rest', ¬(e.1 < f.1 ∧ f.1 < e.1 + delay) :=
          fun f hf => hquiet f (List.mem_cons_of_mem _ hf)
        have hmem := ih hrest e hin hq'
        by_cases hlt : t₂ < t + delay
        · rw [if_pos hlt]
          exact hmem
        · rw [if_neg hlt]
          exact List.mem_cons_of_mem _ hmem

/-- C7: over the discrete-time model of the `useDebounce` timer protocol,
for chronologically ordered input events: every emission fires exactly
`delay` after an input event, carries that event's value, and no other
input falls strictly within the waiting window (stability for the full
delay; an input superseded within the delay — a cancelled timer — never
appears); conversely every input followed by a full quiet window emits;
and the spec's scenario (inputs at t = 0, 10, 20 with delay 300) produces
exactly one emission, at t = 320 ≥ 320, carrying the t = 20 value. -/
theorem debounce_contract {V : Type} (events : List (Nat × V)) (delay : Nat)
    (hchrono : events.Pairwise fun e f => e.1 < f.1) :
    (∀ em ∈ debounceEmissions delay events,
        ∃ e ∈ events, em = (e.1 + delay, e.2) ∧
          ∀ f ∈ events, ¬(e.1 < f.1 ∧ f.1 < e.1 + delay)) ∧
    (∀ e ∈ events, (∀ f ∈ events, ¬(e.1 < f.1 ∧ f.1 < e.1 + delay)) →
        (e.1 + delay, e.2) ∈ debounceEmissions delay events) ∧
    (∀ a b c : V, debounceEmissions 300 [(0, a), (10, b), (20, c)] = [(320, c)]) :=
  ⟨debounceEmissions_sound delay events hchrono,
    debounceEmissions_complete delay events hchrono,
    fun _ _ _ => rfl⟩

/-- Witness for `debounce_contract`: the spec's burst scenario, with the
t = 20 event's emission recovered through the completeness clause. -/
theorem debounce_contract_witness :
    debounceEmissions 300 [(0, 1), (10, 2), (20, 3)] = [(320, 3)] ∧
    (320, 3) ∈ debounceEmissions 300 [(0, 1), (10, 2), (20, 3)] :=
  ⟨by decide,
    (debounce_contract [(0, 1), (10, 2), (20, 3)] 300 (by decide)).2.1 (20, 3)
      (by decide) (by decide)⟩

/-! ## Score-floor claim -/

/-- The running maximum of the field scan never drops below zero. -/
theorem foldl_scanField_maxScore_nonneg (task : JTask) (nq : List Char) (inc : Bool) :
    ∀ (fs : List String) (acc : FieldScan), 0 ≤ acc.maxScore →
      0 ≤ (fs.foldl (scanField task nq inc) acc).maxScore := by
  intro fs
  induction fs with
  | nil =>
    intro acc h
    exact h
  | cons f fs ih =>
    intro acc h
    apply ih
    simp only [scanField]
    cases hval : task.getField f with
    | none => exact h
    | some fieldValue =>
      dsimp only
      by_cases hempty : fieldValue = []
      · rw [if_pos hempty]
        exact h
      · rw [if_neg hempty]
        by_cases hm : matchesQuery fieldValue nq = true
        · rw [if_pos hm]
          simp only
          split
          · exact calculateRelevanceScore_nonneg fieldValue nq
          · exact h
        · rw [if_neg hm]
          exact h

theorem scanFields_maxScore_nonneg (task : JTask) (nq : List Char) (opts : SearchOptions) :
    0 ≤ (scanFields task nq opts).maxScore :=
  foldl_scanField_maxScore_nonneg task nq opts.includeHighlights opts.fields
    { maxScore := 0, highlights := [], matched := false } (le_refl 0)

/-- C9: a field that passes the Match Predicate under a non-empty
normalized query scores at least 40 (the substring rule's base), hence
strictly above 0; and since every annotated score is non-negative, the
default `minScore = 0` filter never drops a matched record. -/
theorem matched_score_floor (text query nq : List Char) (tasks : List JTask)
    (opts : SearchOptions) :
    (normalizeText query ≠ [] → matchesQuery text query = true →
      40 ≤ calculateRelevanceScore text query ∧ 0 < calculateRelevanceScore text query) ∧
    (opts.minScore = 0 → elasticCandidates tasks nq opts = elasticMatched tasks nq opts) := by
  constructor
  · intro hq hm
    have h40 := calculateRelevanceScore_ge_40 hq hm
    exact ⟨h40, lt_of_lt_of_le (by norm_num) h40⟩
  · intro hmin
    unfold elasticCandidates
    rw [List.filter_eq_self]
    intro task htask
    obtain ⟨src, hsrc, hsome⟩ := List.mem_filterMap.mp htask
    by_cases hmatched : (scanFields src nq opts).matched = true
    · rw [if_pos hmatched] at hsome
      have hscore : task.score = some (scanFields src nq opts).maxScore := by
        rw [← Option.some_inj.mp hsome]
      rw [hmin, hscore]
      exact decide_eq_true (scanFields_maxScore_nonneg src nq opts)
    · rw [if_neg hmatched] at hsome
      cases hsome

/-- Witness for `matched_score_floor` at a concrete matched pair and a
concrete default-options search. -/
theorem matched_score_floor_witness :
    40 ≤ calculateRelevanceScore "Team meeting".toList "meet".toList ∧
    elasticCandidates [sampleTask] "a".toList {} = elasticMatched [sampleTask] "a".toList {} :=
  ⟨((matched_score_floor "Team meeting".toList "meet".toList "a".toList [sampleTask] {}).1
      (by decide) (by decide)).1,
    (matched_score_floor "Team meeting".toList "meet".toList "a".toList [sampleTask] {}).2 rfl⟩

theorem if_lt_eq_max (a b : ℚ) : (if a < b then b else a) = max a b := by
  rcases le_or_lt b a with h | h
  · rw [if_neg (not_lt.mpr h), max_eq_left h]
  · rw [if_pos h, max_eq_right h.le]

/-- A non-passing field leaves the scan accumulator untouched. -/
theorem scanField_of_fail (inc : Bool) (acc : FieldScan) {task : JTask} {nq : List Char}
    {f : String} (h : fieldPasses task nq f = false) :
    scanField task nq inc acc f = acc := by
  unfold scanField
  unfold fieldPasses at h
  cases hval : task.getField f with
  | none => rfl
  | some v =>
    rw [hval] at h
    dsimp only at h ⊢
    by_cases hemp : v = []
    · rw [if_pos hemp]
    · have hne : v.isEmpty = false := by
        cases v with
        | nil => exact absurd rfl hemp
        | cons a as => rfl
      rw [hne] at h
      simp only [Bool.not_false, Bool.true_and] at h
      rw [if_neg hemp, if_neg (by simp [h])]

/-- A passing field raises the running maximum to the field's score, marks
the record matched, and (when requested) appends the field's highlight. -/
theorem scanField_of_pass (inc : Bool) (acc : FieldScan) {task : JTask} {nq : List Char}
    {f : String} (h : fieldPasses task nq f = true) :
    scanField task nq inc acc f =
      { maxScore := max acc.maxScore (calculateRelevanceScore ((task.getField f).getD []) nq)
        highlights :=
          if inc then acc.highlights ++ [(f, highlightMatches ((task.getField f).getD []) nq)]
          else acc.highlights
        matched := true } := by
  unfold scanField
  unfold fieldPasses at h
  cases hval : task.getField f with
  | none =>
    rw [hval] at h
    simp at h
  | some v =>
    rw [hval] at h
    dsimp only at h ⊢
    simp only [Bool.and_eq_true, Bool.not_eq_true'] at h
    obtain ⟨hne, hm⟩ := h
    have hemp : v ≠ [] := by
      intro heq
      rw [heq] at hne
      cases hne
    rw [if_neg hemp, if_pos hm, if_lt_eq_max]
    simp only [Option.getD_some]

theorem foldl_scanField_maxScore_eq (task : JTask) (nq : List Char) (inc : Bool) :
    ∀ (fs : List String) (acc : FieldScan),
      (fs.foldl (scanField task nq inc) acc).maxScore =
        ((fs.filter (fieldPasses task nq)).map
            (fun f => calculateRelevanceScore ((task.getField f).getD []) nq)).foldl max
          acc.maxScore := by
  intro fs
  induction fs with
  | nil => intro acc; rfl
  | cons f fs ih =>
    intro acc
    rw [List.foldl_cons, List.filter_cons]
    by_cases hpass : fieldPasses task nq f = true
    · rw [if_pos hpass, List.map_cons, List.foldl_cons, ih, scanField_of_pass inc acc hpass]
    · have hfail : fieldPasses task nq f = false := Bool.eq_false_iff.mpr hpass
      rw [if_neg hpass, scanField_of_fail inc acc hfail, ih]

theorem foldl_scanField_matched (task : JTask) (nq : List Char) (inc : Bool) :
    ∀ (fs : List String) (acc : FieldScan),
      (fs.foldl (scanField task nq inc) acc).matched =
        (acc.matched || fs.any (fieldPasses task nq)) := by
  intro fs
  induction fs with
  | nil => intro acc; simp
  | cons f fs ih =>
    intro acc
    rw [List.foldl_cons, List.any_cons]
    by_cases hpass : fieldPasses task nq f = true
    · rw [ih, scanField_of_pass inc acc hpass, hpass]
      simp
    · have hfail : fieldPasses task nq f = false := Bool.eq_false_iff.mpr hpass
      rw [ih, scanField_of_fail inc acc hfail, hfail]
      simp

theorem scanFields_maxScore_eq (task : JTask) (nq : List Char) (opts : SearchOptions) :
    (scanFields task nq opts).maxScore = fieldScoreMax task nq opts.fields := by
  unfold scanFields fieldScoreMax
  rw [foldl_scanField_maxScore_eq]

theorem scanFields_matched_iff (task : JTask) (nq : List Char) (opts : SearchOptions) :
    (scanFields task nq opts).matched = true ↔
      ∃ f ∈ opts.fields, fieldPasses task nq f = true := by
  unfold scanFields
  rw [foldl_scanField_matched]
  simp [List.any_eq_true]

theorem mem_elasticMatched {tasks : List JTask} {nq : List Char} {opts : SearchOptions}
    {r : JTask} :
    r ∈ elasticMatched tasks nq opts ↔
      ∃ t ∈ tasks, (scanFields t nq opts).matched = true ∧ r = annotateTask t nq opts := by
  unfold elasticMatched
  rw [List.mem_filterMap]
  constructor
  · rintro ⟨t, ht, hsome⟩
    dsimp only at hsome
    by_cases hm : (scanFields t nq opts).matched = true
    · rw [if_pos hm] at hsome
      exact ⟨t, ht, hm, (Option.some_inj.mp hsome).symm⟩
    · rw [if_neg hm] at hsome
      cases hsome
  · rintro ⟨t, ht, hm, rfl⟩
    refine ⟨t, ht, ?_⟩
    dsimp only
    rw [if_pos hm]
    rfl

theorem scoreDescLe_trans : ∀ (a b c : JTask),
    scoreDescLe a b → scoreDescLe b c → scoreDescLe a c := by
  intro a b c h₁ h₂
  simp only [scoreDescLe, decide_eq_true_eq] at h₁ h₂ ⊢
  exact le_trans h₂ h₁

theorem scoreDescLe_total : ∀ (a b : JTask), scoreDescLe a b || scoreDescLe b a := by
  intro a b
  simp only [scoreDescLe, Bool.or_eq_true, decide_eq_true_eq]
  exact le_total _ _

theorem le_foldl_max (l : List ℚ) : ∀ a : ℚ, a ≤ l.foldl max a := by
  induction l with
  | nil => intro a; exact le_refl a
  | cons x xs ih => intro a; exact le_trans (le_max_left a x) (ih (max a x))

theorem fieldScoreMax_nonneg (task : JTask) (nq : List Char) (fields : List String) :
    0 ≤ fieldScoreMax task nq fields :=
  le_foldl_max _ 0

/-- C1: for every task list, query and options — an absent or
whitespace-only query returns every record in input order rebuilt with
`_score: 0` and empty `_highlights`; a non-empty query returns exactly the
records with at least one listed field passing the Match Predicate whose
score — the maximum Scorer result over the passing fields — reaches
`minScore`, each annotated accordingly; with `sortByRelevance` the result
is the stable descending-by-score sort of those records (sorted, a
permutation, and any pair in candidate order whose scores are already in
order — in particular ties — keeps its relative order), and without it
they stay in input order. -/
theorem search_contract (tasks : List JTask) (query : List Char) (opts : SearchOptions) :
    (jsTrim query = [] →
      elasticSearch tasks query opts =
        tasks.map fun t => { t with score := some 0, highlights := some [] }) ∧
    (jsTrim query ≠ [] →
      (∀ r, r ∈ elasticSearch tasks query opts ↔
          ∃ t ∈ tasks, (∃ f ∈ opts.fields, fieldPasses t (normalizeText query) f = true) ∧
            opts.minScore ≤ fieldScoreMax t (normalizeText query) opts.fields ∧
            r = annotateTask t (normalizeText query) opts) ∧
      (∀ t, (annotateTask t (normalizeText query) opts).score =
          some (fieldScoreMax t (normalizeText query) opts.fields)) ∧
      (opts.sortByRelevance = true →
        (elasticSearch tasks query opts).Pairwise (fun a b => scoreDescLe a b = true) ∧
        List.Perm (elasticSearch tasks query opts)
          (elasticCandidates tasks (normalizeText query) opts) ∧
        (∀ a b, List.Sublist [a, b] (elasticCandidates tasks (normalizeText query) opts) →
          scoreDescLe a b = true →
          List.Sublist [a, b] (elasticSearch tasks query opts))) ∧
      (opts.sortByRelevance = false →
        elasticSearch tasks query opts = elasticCandidates tasks (normalizeText query) opts)) := by
  constructor
  · intro h
    simp only [elasticSearch]
    rw [if_pos (Or.inr h)]
  · intro h
    have hne : ¬(query = [] ∨ jsTrim query = []) := by
      rintro (rfl | hw)
      · exact h rfl
      · exact h hw
    have hmain : elasticSearch tasks query opts =
        if opts.sortByRelevance then
          (elasticCandidates tasks (normalizeText query) opts).mergeSort scoreDescLe
        else elasticCandidates tasks (normalizeText query) opts := by
      simp only [elasticSearch]
      rw [if_neg hne]
    have hmemCand : ∀ r : JTask, r ∈ elasticSearch tasks query opts ↔
        r ∈ elasticCandidates tasks (normalizeText query) opts := by
      intro r
      rw [hmain]
      by_cases hs : opts.sortByRelevance
      · rw [if_pos hs, List.mem_mergeSort]
      · rw [if_neg hs]
    refine ⟨?_, ?_, ?_, ?_⟩
    · intro r
      rw [hmemCand r]
      unfold elasticCandidates
      rw [List.mem_filter]
      constructor
      · rintro ⟨hmem, hp⟩
        obtain ⟨t, ht, hm, rfl⟩ := mem_elasticMatched.mp hmem
        refine ⟨t, ht, (scanFields_matched_iff t _ opts).mp hm, ?_, rfl⟩
        have hsc : (annotateTask t (normalizeText query) opts).score.getD 0 =
            fieldScoreMax t (normalizeText query) opts.fields := by
          show ((some (scanFields t (normalizeText query) opts).maxScore).getD 0) =
            fieldScoreMax t (normalizeText query) opts.fields
          rw [Option.getD_some, scanFields_maxScore_eq]
        rw [← hsc]
        exact of_decide_eq_true hp
      · rintro ⟨t, ht, hfield, hmin, rfl⟩
        refine ⟨mem_elasticMatched.mpr
          ⟨t, ht, (scanFields_matched_iff t _ opts).mpr hfield, rfl⟩, ?_⟩
        apply decide_eq_true
        have hsc : (annotateTask t (normalizeText query) opts).score.getD 0 =
            fieldScoreMax t (normalizeText query) opts.fields := by
          show ((some (scanFields t (normalizeText query) opts).maxScore).getD 0) =
            fieldScoreMax t (normalizeText query) opts.fields
          rw [Option.getD_some, scanFields_maxScore_eq]
        rw [hsc]
        exact hmin
    · intro t
      show some (scanFields t (normalizeText query) opts).maxScore = _
      rw [scanFields_maxScore_eq]
    · intro hs
      rw [hmain, if_pos hs]
      refine ⟨List.sorted_mergeSort scoreDescLe_trans scoreDescLe_total _,
        List.mergeSort_perm _ _, ?_⟩
      intro a b hab hle
      exact List.pair_sublist_mergeSort scoreDescLe_trans scoreDescLe_total hle hab
    · intro hs
      rw [hmain, hs]
      simp

/-- Witness for `search_contract`: on a one-record list whose title is
`"a"`, the query `"a"` places the annotated record in the result, and a
whitespace query returns the zero-scored pass-through. -/
theorem search_contract_witness :
    annotateTask sampleTask (normalizeText "a".toList) {} ∈
      elasticSearch [sampleTask] "a".toList {} ∧
    elasticSearch [sampleTask] [' '] {} =
      [{ sampleTask with score := some 0, highlights := some [] }] := by
  constructor
  · exact (((search_contract [sampleTask] "a".toList {}).2 (by decide)).1 _).mpr
      ⟨sampleTask, List.mem_singleton.mpr rfl, ⟨"title", by decide, by decide⟩,
        fieldScoreMax_nonneg _ _ _, rfl⟩
  · exact (search_contract [sampleTask] [' '] {}).1 (by decide)

end TaskManager
